import Mathlib

/-!
Verification of the NumInfo lookup app (src/app.py): the response
normalization and field-mapping core, the mock lookup, and the
lookup-action dispatch. JSON values are embedded as an inductive type;
Python dicts become insertion-ordered association lists over strings.
-/

set_option autoImplicit false

namespace NumInfo

/-- A JSON value, as produced by resp.json() or built by the app. -/
inductive JVal where
  | null : JVal
  | bool (b : Bool) : JVal
  | num (n : Int) : JVal
  | str (s : String) : JVal
  | arr (xs : List JVal) : JVal
  | obj (kvs : List (String × JVal)) : JVal
deriving Repr

/-- A Python dict of JSON values: insertion-ordered key/value pairs. -/
abbrev Obj := List (String × JVal)

/-- Python truthiness of a JSON value: None, False, 0, empty string,
empty list and empty dict are falsy; everything else is truthy. -/
def truthy : JVal → Bool
  | .null => false
  | .bool b => b
  | .num n => n != 0
  | .str s => s != ""
  | .arr xs => !xs.isEmpty
  | .obj kvs => !kvs.isEmpty

/-- Python membership test k in data for a dict. -/
def hasKey (o : Obj) (k : String) : Bool :=
  o.any fun kv => kv.1 == k

/-- The fixed canonical-field/alias table of auto_map_fields
(mapping_candidates in src/app.py, lines 135-144). -/
def mapping_candidates : List (String × List String) :=
  [("name", ["name", "fullname", "full_name", "user", "username"]),
   ("fname", ["father_name", "fname", "father", "parent"]),
   ("mobile", ["mobile", "phone", "msisdn", "number"]),
   ("alt", ["alt", "alternate", "alt_number"]),
   ("email", ["email", "mail"]),
   ("id", ["id", "identifier", "uid"]),
   ("circle", ["circle", "region", "area"]),
   ("address", ["address", "addr", "location"])]

/-- The inner loop of the shallow search: the value of the first alias
that is present in data with a truthy value (if c in data and data[c]). -/
def firstTruthy (data : Obj) : List String → Option JVal
  | [] => none
  | c :: cs =>
    match data.lookup c with
    | some v => if truthy v then some v else firstTruthy data cs
    | none => firstTruthy data cs

/-- The alias selected by the shallow search: the first alias present in
data with a truthy value. -/
def firstTruthyKey (data : Obj) : List String → Option String
  | [] => none
  | c :: cs =>
    match data.lookup c with
    | some v => if truthy v then some c else firstTruthyKey data cs
    | none => firstTruthyKey data cs

/-- First pass of auto_map_fields (the shallow search loop, lines
146-150): for each candidate field in order, bind the first truthy alias
value, accumulating into mapped. -/
def pass1Aux (data : Obj) : List (String × List String) → Obj → Obj
  | [], mapped => mapped
  | fc :: rest, mapped =>
    match firstTruthy data fc.2 with
    | some v => pass1Aux data rest (mapped ++ [(fc.1, v)])
    | none => pass1Aux data rest mapped

def pass1 (data : Obj) : Obj :=
  pass1Aux data mapping_candidates []

/-- Second pass of auto_map_fields (lines 151-154): for each canonical
key k, if k in data and k not in mapped, set mapped[k] = data[k]. -/
def pass2Aux (data : Obj) : List (String × List String) → Obj → Obj
  | [], mapped => mapped
  | fc :: rest, mapped =>
    match data.lookup fc.1 with
    | some v =>
      if hasKey mapped fc.1 then pass2Aux data rest mapped
      else pass2Aux data rest (mapped ++ [(fc.1, v)])
    | none => pass2Aux data rest mapped

def pass2 (data : Obj) (mapped : Obj) : Obj :=
  pass2Aux data mapping_candidates mapped

/-- The others bucket (line 156): all entries of data whose key is not a
key of mapped. -/
def othersOf (data mapped : Obj) : Obj :=
  data.filter fun kv => !hasKey mapped kv.1

/-- auto_map_fields (src/app.py lines 126-159). A non-dict input yields
the dict given by return␣\x7b"raw": data\x7d; a dict input goes through the
two mapping passes and the others bucket, which is appended only when
non-empty. -/
def auto_map_fields (data : JVal) : Obj :=
  match data with
  | .obj kvs =>
    let mapped := pass2 kvs (pass1 kvs)
    let others := othersOf kvs mapped
    if others.isEmpty then mapped else mapped ++ [("others", .obj others)]
  | d => [("raw", d)]

/-- Is the JSON value a dict (isinstance(data, dict))? -/
def isObjVal : JVal → Bool
  | .obj _ => true
  | _ => false

/-- The aliases of a field that were consumed as the source of a
canonical field during the first pass. -/
def consumedKeys (data : Obj) : List String :=
  mapping_candidates.filterMap fun fc => firstTruthyKey data fc.2

/-- all present aliases of A have falsy values (in particular, holds
when no alias of A is present in data). -/
def allPresentFalsy (data : Obj) (A : List String) : Bool :=
  A.all fun c =>
    match data.lookup c with
    | some v => !truthy v
    | none => true

/-- The canned sample records of mock_lookup (src/app.py lines 98-102);
each echoes term_value as its mobile field. -/
def samples (term_value : String) : List Obj :=
  [[("name", .str "Rahul Kumar"), ("fname", .str "Suresh Kumar"),
    ("mobile", .str term_value), ("email", .str "rahul.k@example.com"),
    ("address", .str "Delhi")],
   [("name", .str "Priya Sharma"), ("fname", .str "Anil Sharma"),
    ("mobile", .str term_value), ("email", .str "priya.sh@example.com"),
    ("address", .str "Mumbai")],
   [("name", .str "Unknown"), ("mobile", .str term_value),
    ("address", .str "Unknown"), ("note", .str "No data found")]]

/-- The index selected by mock_lookup (line 103):
idx = 0 if not term_value else abs(hash(term_value)) % len(samples).
Python's built-in string hash is a fixed function within one process; it
is passed here as the parameter h. -/
def mockIdx (h : String → Int) (term_value : String) : Nat :=
  if term_value = "" then 0
  else (h term_value).natAbs % (samples term_value).length

/-- mock_lookup (src/app.py lines 96-104): samples[idx]. -/
def mock_lookup (h : String → Int) (term_value : String) : Obj :=
  (samples term_value).getD (mockIdx h term_value) []

/-- Envelope normalization of call_real_api (src/app.py lines 116-124):
parsed is the outcome of resp.json() (none when it raised ValueError)
and rawText is resp.text. A JSON list is wrapped as
\x7b"results": data\x7d; an unparseable body yields \x7b"text": resp.text\x7d. -/
def normalizeBody (parsed : Option JVal) (rawText : String) : JVal :=
  match parsed with
  | some (.arr xs) => .obj [("results", .arr xs)]
  | some d => d
  | none => .obj [("text", .str rawText)]

/-- The action the lookup handler dispatches to (src/app.py lines
162-177), determined by the submitted term, the mock toggle and the
sidebar fields. -/
inductive LookupAction where
  | inputError : LookupAction
  | mockCall (t : String) : LookupAction
  | baseUrlError : LookupAction
  | realCall (base keyp keyv termp termv : String) : LookupAction
deriving Repr, DecidableEq

/-- The dispatch of the do_lookup handler: an empty term is rejected
(if not term), else mock mode calls mock_lookup(term), else an empty
stripped base URL is rejected, else call_real_api is invoked on the
stripped sidebar values and stripped term. -/
def do_lookup_action (term : String) (use_mock : Bool)
    (base_url key_param api_key term_param : String) : LookupAction :=
  if term = "" then .inputError
  else if use_mock then .mockCall term
  else if base_url.trim = "" then .baseUrlError
  else .realCall base_url.trim key_param.trim api_key.trim term_param.trim
    term.trim

/-- The canonical portion of a mapper output: all entries except the
others bucket. -/
def canonicalPart (out : Obj) : Obj :=
  out.filter fun kv => kv.1 != "others"

/-- The others bucket of a mapper output (empty when absent). -/
def othersPart (out : Obj) : Obj :=
  match out.lookup "others" with
  | some (.obj o) => o
  | _ => []

/-- hasKey restated as membership among the mapped-out keys. -/
theorem hasKey_iff_mem {o : Obj} {k : String} :
    hasKey o k = true ↔ k ∈ o.map Prod.fst := by
  simp [hasKey, List.any_eq_true, List.mem_map]

/-- hasKey over an append is the disjunction of the parts. -/
theorem hasKey_append {o₁ o₂ : Obj} {k : String} :
    hasKey (o₁ ++ o₂) k = (hasKey o₁ k || hasKey o₂ k) := by
  simp [hasKey]

/-- Lookup of k on a cons whose head key is not k skips the head. -/
theorem lookup_cons_ne {kv : String × JVal} {t : Obj} {k : String}
    (h : kv.1 ≠ k) : (kv :: t).lookup k = t.lookup k := by
  have hb : (k == kv.1) = false := beq_eq_false_iff_ne.mpr (Ne.symm h)
  simp [List.lookup, hb]

/-- Lookup of k on a cons whose head key is k returns the head value. -/
theorem lookup_cons_self {kv : String × JVal} {t : Obj} :
    (kv :: t).lookup kv.1 = some kv.2 := by
  simp [List.lookup]

/-- Lookup of k on a cons headed by the pair (k, v) returns v. -/
theorem lookup_cons_head {k : String} {v : JVal} {t : Obj} :
    ((k, v) :: t).lookup k = some v := by
  simp [List.lookup]

/-- A dict has no entry for k exactly when lookup of k fails. -/
theorem hasKey_eq_false_iff_lookup {o : Obj} {k : String} :
    hasKey o k = false ↔ o.lookup k = none := by
  induction o with
  | nil => simp [hasKey]
  | cons kv t ih =>
    by_cases hk : kv.1 = k
    · subst hk
      simp [hasKey, lookup_cons_self]
    · rw [lookup_cons_ne hk, ← ih]
      simp [hasKey, hk]

/-- A dict has an entry for k exactly when lookup of k succeeds. -/
theorem hasKey_eq_true_iff_lookup {o : Obj} {k : String} :
    hasKey o k = true ↔ ∃ v, o.lookup k = some v := by
  induction o with
  | nil => simp [hasKey]
  | cons kv t ih =>
    by_cases hk : kv.1 = k
    · subst hk
      simp [hasKey, lookup_cons_self]
    · rw [lookup_cons_ne hk, ← ih]
      simp [hasKey, hk]

/-- A successful lookup is preserved on the left of an append. -/
theorem lookup_append_left {o₁ o₂ : Obj} {k : String} {v : JVal}
    (h : o₁.lookup k = some v) : (o₁ ++ o₂).lookup k = some v := by
  induction o₁ with
  | nil => simp [List.lookup] at h
  | cons kv t ih =>
    by_cases hk : kv.1 = k
    · subst hk
      rw [lookup_cons_self] at h
      rw [List.cons_append, lookup_cons_self]
      exact h
    · rw [lookup_cons_ne hk] at h
      rw [List.cons_append, lookup_cons_ne hk]
      exact ih h

/-- Lookup skips an appended prefix without the key. -/
theorem lookup_append_right {o₁ o₂ : Obj} {k : String}
    (h : hasKey o₁ k = false) : (o₁ ++ o₂).lookup k = o₂.lookup k := by
  induction o₁ with
  | nil => simp
  | cons kv t ih =>
    simp [hasKey] at h
    rw [List.cons_append, lookup_cons_ne h.1]
    refine ih ?_
    simp [hasKey]
    exact h.2

/-- pass1Aux only appends entries, so a successful lookup is preserved. -/
theorem pass1Aux_lookup_mono (data : Obj) (cands : List (String × List String))
    {mapped : Obj} {k : String} {v : JVal} (h : mapped.lookup k = some v) :
    (pass1Aux data cands mapped).lookup k = some v := by
  induction cands generalizing mapped with
  | nil => exact h
  | cons fc rest ih =>
    simp only [pass1Aux]
    cases hft : firstTruthy data fc.2 with
    | none => exact ih h
    | some w => exact ih (lookup_append_left h)

/-- pass1Aux only appends entries, so present keys stay present. -/
theorem pass1Aux_hasKey_mono (data : Obj) (cands : List (String × List String))
    {mapped : Obj} {k : String} (h : hasKey mapped k = true) :
    hasKey (pass1Aux data cands mapped) k = true := by
  induction cands generalizing mapped with
  | nil => exact h
  | cons fc rest ih =>
    simp only [pass1Aux]
    cases hft : firstTruthy data fc.2 with
    | none => exact ih h
    | some w => exact ih (by rw [hasKey_append, h, Bool.true_or])

/-- Every key of a pass1Aux result was already present or is a
candidate canonical key. -/
theorem pass1Aux_hasKey_sub (data : Obj) (cands : List (String × List String))
    {mapped : Obj} {k : String}
    (h : hasKey (pass1Aux data cands mapped) k = true) :
    hasKey mapped k = true ∨ k ∈ cands.map Prod.fst := by
  induction cands generalizing mapped with
  | nil => exact .inl h
  | cons fc rest ih =>
    simp only [pass1Aux] at h
    cases hft : firstTruthy data fc.2 with
    | none =>
      rw [hft] at h
      rcases ih h with h' | h'
      · exact .inl h'
      · exact .inr (by simp [h'])
    | some w =>
      rw [hft] at h
      rcases ih h with h' | h'
      · rw [hasKey_append] at h'
        rcases Bool.or_eq_true_iff.mp h' with h'' | h''
        · exact .inl h''
        · simp [hasKey] at h''
          exact .inr (by simp [h''])
      · exact .inr (by simp [h'])

/-- pass2Aux only appends entries, so a successful lookup is preserved. -/
theorem pass2Aux_lookup_mono (data : Obj) (cands : List (String × List String))
    {mapped : Obj} {k : String} {v : JVal} (h : mapped.lookup k = some v) :
    (pass2Aux data cands mapped).lookup k = some v := by
  induction cands generalizing mapped with
  | nil => exact h
  | cons fc rest ih =>
    simp only [pass2Aux]
    split
    · split
      · exact ih h
      · exact ih (lookup_append_left h)
    · exact ih h

/-- pass2Aux only appends entries, so present keys stay present. -/
theorem pass2Aux_hasKey_mono (data : Obj) (cands : List (String × List String))
    {mapped : Obj} {k : String} (h : hasKey mapped k = true) :
    hasKey (pass2Aux data cands mapped) k = true := by
  induction cands generalizing mapped with
  | nil => exact h
  | cons fc rest ih =>
    simp only [pass2Aux]
    split
    · split
      · exact ih h
      · exact ih (by rw [hasKey_append, h, Bool.true_or])
    · exact ih h

/-- Every key of a pass2Aux result was already present or is a
candidate canonical key. -/
theorem pass2Aux_hasKey_sub (data : Obj) (cands : List (String × List String))
    {mapped : Obj} {k : String}
    (h : hasKey (pass2Aux data cands mapped) k = true) :
    hasKey mapped k = true ∨ k ∈ cands.map Prod.fst := by
  induction cands generalizing mapped with
  | nil => exact .inl h
  | cons fc rest ih =>
    simp only [pass2Aux] at h
    split at h
    · split at h
      · rcases ih h with h' | h'
        · exact .inl h'
        · exact .inr (by simp [h'])
      · rcases ih h with h' | h'
        · rw [hasKey_append] at h'
          rcases Bool.or_eq_true_iff.mp h' with h'' | h''
          · exact .inl h''
          · simp [hasKey] at h''
            exact .inr (by simp [h''])
        · exact .inr (by simp [h'])
    · rcases ih h with h' | h'
      · exact .inl h'
      · exact .inr (by simp [h'])

/-- If the first truthy alias of a candidate field exists, pass1Aux
binds that field to its value (candidate keys distinct, field not yet
bound). -/
theorem pass1Aux_lookup_first (data : Obj) (cands : List (String × List String))
    {mapped : Obj} {f : String} {A : List String} {v : JVal}
    (hnd : (cands.map Prod.fst).Nodup) (hnk : hasKey mapped f = false)
    (hmem : (f, A) ∈ cands) (hft : firstTruthy data A = some v) :
    (pass1Aux data cands mapped).lookup f = some v := by
  induction cands generalizing mapped with
  | nil => simp at hmem
  | cons fc rest ih =>
    simp only [pass1Aux]
    rcases List.mem_cons.mp hmem with heq | hmem'
    · have h1 : fc.1 = f := by rw [← heq]
      have h2 : fc.2 = A := by rw [← heq]
      rw [h2, hft]
      refine pass1Aux_lookup_mono data rest ?_
      rw [h1, lookup_append_right hnk]
      exact lookup_cons_head
    · have hfr : f ∈ rest.map Prod.fst :=
        List.mem_map.mpr ⟨(f, A), hmem', rfl⟩
      have hne : fc.1 ≠ f := by
        intro he
        rw [List.map_cons, List.nodup_cons] at hnd
        exact hnd.1 (he ▸ hfr)
      cases hft2 : firstTruthy data fc.2 with
      | none => exact ih (by simp_all) hnk hmem'
      | some w =>
        refine ih (by simp_all) ?_ hmem'
        rw [hasKey_append, hnk]
        simp [hasKey, hne]

/-- If every candidate alias list for the key f yields no truthy value,
pass1Aux does not introduce f. -/
theorem pass1Aux_hasKey_none (data : Obj) (cands : List (String × List String))
    {mapped : Obj} {f : String} (hnk : hasKey mapped f = false)
    (hall : ∀ B, (f, B) ∈ cands → firstTruthy data B = none) :
    hasKey (pass1Aux data cands mapped) f = false := by
  induction cands generalizing mapped with
  | nil => exact hnk
  | cons fc rest ih =>
    simp only [pass1Aux]
    cases hft : firstTruthy data fc.2 with
    | none => exact ih hnk fun B hB => hall B (List.mem_cons_of_mem _ hB)
    | some w =>
      have hne : fc.1 ≠ f := by
        intro he
        have hhd : (f, fc.2) ∈ fc :: rest := by
          rw [← he, Prod.mk.eta]
          exact List.mem_cons_self _ _
        rw [hall fc.2 hhd] at hft
        cases hft
      refine ih ?_ fun B hB => hall B (List.mem_cons_of_mem _ hB)
      rw [hasKey_append, hnk]
      simp [hasKey, hne]

/-- If f is absent from both mapped and data, pass2Aux does not
introduce it. -/
theorem pass2Aux_hasKey_none (data : Obj) (cands : List (String × List String))
    {mapped : Obj} {f : String} (hnk : hasKey mapped f = false)
    (hl : data.lookup f = none) :
    hasKey (pass2Aux data cands mapped) f = false := by
  induction cands generalizing mapped with
  | nil => exact hnk
  | cons fc rest ih =>
    simp only [pass2Aux]
    split
    · rename_i w hw
      have hne : fc.1 ≠ f := by
        intro he
        rw [he, hl] at hw
        cases hw
      split
      · exact ih hnk
      · refine ih ?_
        rw [hasKey_append, hnk]
        simp [hasKey, hne]
    · exact ih hnk

/-- If f is a candidate canonical key present in data, pass2Aux leaves
f present in the result. -/
theorem pass2Aux_hasKey_present (data : Obj)
    (cands : List (String × List String)) {mapped : Obj} {f : String}
    {v : JVal} (hl : data.lookup f = some v)
    (hmemk : f ∈ cands.map Prod.fst) :
    hasKey (pass2Aux data cands mapped) f = true := by
  induction cands generalizing mapped with
  | nil => simp at hmemk
  | cons fc rest ih =>
    simp only [pass2Aux]
    rw [List.map_cons, List.mem_cons] at hmemk
    by_cases he : fc.1 = f
    · split
      · split
        · rename_i hin
          exact pass2Aux_hasKey_mono data rest (he ▸ hin)
        · refine pass2Aux_hasKey_mono data rest ?_
          rw [hasKey_append]
          simp [hasKey, he]
      · rename_i hw
        rw [he, hl] at hw
        cases hw
    · have hr : f ∈ rest.map Prod.fst := by
        rcases hmemk with h' | h'
        · exact absurd h'.symm he
        · exact h'
      split
      · split
        · exact ih hr
        · exact ih hr
      · exact ih hr

/-- If f is a candidate canonical key present in data but not yet
bound, pass2Aux copies the value of data at f verbatim. -/
theorem pass2Aux_lookup_insert (data : Obj)
    (cands : List (String × List String)) {mapped : Obj} {f : String}
    {v : JVal} (hnk : hasKey mapped f = false)
    (hl : data.lookup f = some v) (hmemk : f ∈ cands.map Prod.fst) :
    (pass2Aux data cands mapped).lookup f = some v := by
  induction cands generalizing mapped with
  | nil => simp at hmemk
  | cons fc rest ih =>
    simp only [pass2Aux]
    rw [List.map_cons, List.mem_cons] at hmemk
    by_cases he : fc.1 = f
    · split
      · rename_i w hw
        have hv : w = v := by
          rw [he, hl] at hw
          cases hw
          rfl
        split
        · rename_i hin
          rw [he] at hin
          rw [hin] at hnk
          cases hnk
        · refine pass2Aux_lookup_mono data rest ?_
          rw [he, lookup_append_right hnk, hv]
          exact lookup_cons_head
      · rename_i hw
        rw [he, hl] at hw
        cases hw
    · have hr : f ∈ rest.map Prod.fst := by
        rcases hmemk with h' | h'
        · exact absurd h'.symm he
        · exact h'
      split
      · split
        · exact ih hnk hr
        · refine ih ?_ hr
          rw [hasKey_append, hnk]
          simp [hasKey, he]
      · exact ih hnk hr

/-- pass1Aux keeps the bound keys duplicate-free when the candidate
keys are duplicate-free and disjoint from the keys already bound. -/
theorem pass1Aux_keys_nodup (data : Obj) (cands : List (String × List String))
    {mapped : Obj} (hm : (mapped.map Prod.fst).Nodup)
    (hc : (cands.map Prod.fst).Nodup)
    (hdisj : ∀ k, hasKey mapped k = true → k ∉ cands.map Prod.fst) :
    ((pass1Aux data cands mapped).map Prod.fst).Nodup := by
  induction cands generalizing mapped with
  | nil => exact hm
  | cons fc rest ih =>
    rw [List.map_cons, List.nodup_cons] at hc
    simp only [pass1Aux]
    cases hft : firstTruthy data fc.2 with
    | none =>
      refine ih hm hc.2 fun k hk => ?_
      intro hmem
      exact hdisj k hk (List.mem_cons_of_mem _ hmem)
    | some w =>
      have hfcm : hasKey mapped fc.1 = false := by
        cases hfc : hasKey mapped fc.1
        · rfl
        · exact absurd (List.mem_cons_self _ _) (hdisj fc.1 hfc)
      refine ih ?_ hc.2 fun k hk => ?_
      · rw [List.map_append, List.nodup_append]
        refine ⟨hm, List.nodup_singleton _, fun a ha hb => ?_⟩
        simp at hb
        subst hb
        rw [hasKey_iff_mem.mpr ha] at hfcm
        cases hfcm
      · rw [hasKey_append] at hk
        intro hmem
        rcases Bool.or_eq_true_iff.mp hk with h' | h'
        · exact hdisj k h' (List.mem_cons_of_mem _ hmem)
        · simp [hasKey] at h'
          exact hc.1 (h' ▸ hmem)

/-- pass2Aux keeps the bound keys duplicate-free: it only inserts a key
after checking it is absent. -/
theorem pass2Aux_keys_nodup (data : Obj) (cands : List (String × List String))
    {mapped : Obj} (hm : (mapped.map Prod.fst).Nodup) :
    ((pass2Aux data cands mapped).map Prod.fst).Nodup := by
  induction cands generalizing mapped with
  | nil => exact hm
  | cons fc rest ih =>
    simp only [pass2Aux]
    split
    · split
      · exact ih hm
      · rename_i hout
        refine ih ?_
        rw [List.map_append, List.nodup_append]
        refine ⟨hm, List.nodup_singleton _, fun a ha hb => ?_⟩
        simp at hb
        subst hb
        rw [hasKey_iff_mem.mpr ha] at hout
        exact hout rfl
    · exact ih hm

/-- A key of the others bucket is a key of data absent from mapped. -/
theorem hasKey_othersOf_iff {data mapped : Obj} {k : String} :
    hasKey (othersOf data mapped) k = true ↔
      (k ∈ data.map Prod.fst ∧ hasKey mapped k = false) := by
  rw [hasKey_iff_mem]
  simp only [othersOf, List.mem_map, List.mem_filter]
  constructor
  · rintro ⟨kv, ⟨hkv, hp⟩, rfl⟩
    refine ⟨⟨kv, hkv, rfl⟩, ?_⟩
    simpa using hp
  · rintro ⟨⟨kv, hkv, rfl⟩, hmk⟩
    exact ⟨kv, ⟨hkv, by simpa using hmk⟩, rfl⟩

/-- The others bucket inherits duplicate-free keys from data. -/
theorem othersOf_keys_nodup {data mapped : Obj}
    (h : (data.map Prod.fst).Nodup) :
    ((othersOf data mapped).map Prod.fst).Nodup :=
  List.Nodup.sublist (List.Sublist.map Prod.fst (List.filter_sublist data)) h

/-- A first truthy alias is present in data with a truthy value, and
firstTruthy returns exactly that value. -/
theorem firstTruthyKey_spec {data : Obj} {A : List String} {c : String}
    (h : firstTruthyKey data A = some c) :
    ∃ v, data.lookup c = some v ∧ truthy v = true ∧
      firstTruthy data A = some v := by
  induction A with
  | nil => cases h
  | cons a cs ih =>
    simp only [firstTruthyKey] at h
    simp only [firstTruthy]
    split at h
    · rename_i v hv
      split at h
      · rename_i htr
        cases h
        exact ⟨v, hv, htr, by simp [htr]⟩
      · rename_i htr
        rcases ih h with ⟨v₂, hv₂, htr₂, hft₂⟩
        refine ⟨v₂, hv₂, htr₂, ?_⟩
        simp [htr, hft₂]
    · rename_i hv
      exact ih h

/-- If every present alias is falsy, the shallow search fails. -/
theorem allPresentFalsy_firstTruthy {data : Obj} {A : List String}
    (h : allPresentFalsy data A = true) : firstTruthy data A = none := by
  induction A with
  | nil => rfl
  | cons a cs ih =>
    simp only [allPresentFalsy, List.all_cons, Bool.and_eq_true] at h
    simp only [firstTruthy]
    rcases h with ⟨ha, hcs⟩
    split at ha
    · rename_i v hv
      simp only [Bool.not_eq_true'] at ha
      simp only [ha, Bool.false_eq_true, if_false]
      exact ih hcs
    · rename_i hv
      exact ih hcs

/-- In a list with duplicate-free keys, a key determines its value. -/
theorem keys_nodup_eq {l : List (String × List String)} {f : String}
    {A B : List String} (hnd : (l.map Prod.fst).Nodup)
    (hA : (f, A) ∈ l) (hB : (f, B) ∈ l) : A = B := by
  induction l with
  | nil => cases hA
  | cons x xs ih =>
    obtain ⟨x1, x2⟩ := x
    rw [List.map_cons, List.nodup_cons] at hnd
    rcases List.mem_cons.mp hA with hA1 | hA1 <;>
      rcases List.mem_cons.mp hB with hB1 | hB1
    · rw [Prod.mk.injEq] at hA1 hB1
      rw [hA1.2, hB1.2]
    · rw [Prod.mk.injEq] at hA1
      exact absurd (List.mem_map.mpr ⟨(f, B), hB1, hA1.1⟩) hnd.1
    · rw [Prod.mk.injEq] at hB1
      exact absurd (List.mem_map.mpr ⟨(f, A), hA1, hB1.1⟩) hnd.1
    · exact ih hnd.2 hA1 hB1

/-- Every key bound by the two mapping passes is a canonical field
name. -/
theorem mapped_hasKey_canonical (data : Obj) {k : String}
    (h : hasKey (pass2 data (pass1 data)) k = true) :
    k ∈ mapping_candidates.map Prod.fst := by
  rcases pass2Aux_hasKey_sub data mapping_candidates h with h' | h'
  · rcases pass1Aux_hasKey_sub data mapping_candidates h' with h'' | h''
    · simp [hasKey] at h''
    · exact h''
  · exact h'

/-- The two mapping passes never bind the key "others". -/
theorem mapped_no_others (data : Obj) :
    hasKey (pass2 data (pass1 data)) "others" = false := by
  cases hko : hasKey (pass2 data (pass1 data)) "others"
  · rfl
  · exact absurd (mapped_hasKey_canonical data hko) (by decide)

/-- The keys bound by the two mapping passes are duplicate-free. -/
theorem mapped_keys_nodup (data : Obj) :
    ((pass2 data (pass1 data)).map Prod.fst).Nodup := by
  refine pass2Aux_keys_nodup data mapping_candidates ?_
  refine pass1Aux_keys_nodup data mapping_candidates List.nodup_nil
    (by decide) fun k hk => ?_
  simp [hasKey] at hk

/-- The canonical portion of the mapper output is exactly the result of
the two mapping passes. -/
theorem canonicalPart_eq (data : Obj) :
    canonicalPart (auto_map_fields (.obj data)) =
      pass2 data (pass1 data) := by
  have hself : (pass2 data (pass1 data)).filter
      (fun kv => kv.1 != "others") = pass2 data (pass1 data) := by
    refine List.filter_eq_self.mpr fun kv hkv => ?_
    refine bne_iff_ne.mpr fun he => ?_
    have hko : hasKey (pass2 data (pass1 data)) "others" = true :=
      hasKey_iff_mem.mpr (List.mem_map.mpr ⟨kv, hkv, he⟩)
    rw [mapped_no_others data] at hko
    cases hko
  simp only [auto_map_fields, canonicalPart]
  split
  · exact hself
  · rw [List.filter_append, hself]
    simp

/-- The others bucket of the mapper output is exactly othersOf. -/
theorem othersPart_eq (data : Obj) :
    othersPart (auto_map_fields (.obj data)) =
      othersOf data (pass2 data (pass1 data)) := by
  simp only [auto_map_fields]
  split
  · rename_i hemp
    simp only [othersPart]
    rw [hasKey_eq_false_iff_lookup.mp (mapped_no_others data)]
    exact (List.isEmpty_iff.mp hemp).symm
  · simp only [othersPart]
    rw [lookup_append_right (mapped_no_others data), lookup_cons_head]

/-- The top-level keys of the mapper output are duplicate-free. -/
theorem out_keys_nodup (data : Obj) :
    ((auto_map_fields (.obj data)).map Prod.fst).Nodup := by
  simp only [auto_map_fields]
  split
  · exact mapped_keys_nodup data
  · rw [List.map_append, List.nodup_append]
    refine ⟨mapped_keys_nodup data, List.nodup_singleton _, ?_⟩
    intro a ha hb
    simp at hb
    subst hb
    have : hasKey (pass2 data (pass1 data)) "others" = true :=
      hasKey_iff_mem.mpr ha
    rw [mapped_no_others data] at this
    cases this

/-- Every consumed alias is a key of data. -/
theorem consumedKeys_hasKey {data : Obj} {k : String}
    (h : k ∈ consumedKeys data) : k ∈ data.map Prod.fst := by
  rcases List.mem_filterMap.mp h with ⟨fc, _, hfc⟩
  rcases firstTruthyKey_spec hfc with ⟨v, hv, _, _⟩
  exact hasKey_iff_mem.mp (hasKey_eq_true_iff_lookup.mpr ⟨v, hv⟩)

/-- C2 counterexample: on the scalar input "x", auto_map_fields returns
\x7b raw: "x" \x7d at top level; there is no top-level others key, so the
output is not \x7b others: \x7b raw: "x" \x7d \x7d as the claim states. -/
theorem C2_counterexample :
    auto_map_fields (.str "x") = [("raw", JVal.str "x")] ∧
    hasKey (auto_map_fields (.str "x")) "others" = false :=
  ⟨rfl, rfl⟩

/-- C2 amended: for every non-dict input d, auto_map_fields returns
exactly \x7b raw: d \x7d (the whole input under key raw at top level, not
nested under others), and no canonical field is populated. -/
theorem C2_amended_raw_wrapper (d : JVal) (hobj : isObjVal d = false) :
    auto_map_fields d = [("raw", d)] := by
  cases d <;> simp_all [auto_map_fields, isObjVal]

/-- C2 witness: the amended theorem applied at the scalar input "x". -/
theorem C2_amended_raw_wrapper_witness :
    isObjVal (.str "x") = false ∧
      auto_map_fields (.str "x") = [("raw", JVal.str "x")] :=
  ⟨rfl, C2_amended_raw_wrapper (.str "x") rfl⟩

/-- C3 counterexample: on data = \x7bfullname: A, phone: 123, zzz: q\x7d the
others bucket of the output contains the consumed aliases fullname and
phone, so it is not \x7bzzz: q\x7d as the claim states. -/
theorem C3_counterexample :
    (auto_map_fields (.obj [("fullname", .str "A"), ("phone", .str "123"),
        ("zzz", .str "q")])).lookup "others" =
      some (.obj [("fullname", .str "A"), ("phone", .str "123"),
        ("zzz", .str "q")]) ∧
    hasKey [("fullname", JVal.str "A"), ("phone", JVal.str "123"),
      ("zzz", JVal.str "q")] "fullname" = true ∧
    hasKey [("zzz", JVal.str "q")] "fullname" = false :=
  ⟨rfl, rfl, rfl⟩

/-- C3 amended: on data = \x7bfullname: A, phone: 123, zzz: q\x7d the mapper
returns \x7bname: A, mobile: 123, others: \x7bfullname: A, phone: 123,
zzz: q\x7d\x7d: the consumed aliases fullname and phone reappear inside
others alongside zzz. -/
theorem C3_amended_scenario :
    auto_map_fields (.obj [("fullname", .str "A"), ("phone", .str "123"),
        ("zzz", .str "q")]) =
      [("name", .str "A"), ("mobile", .str "123"),
       ("others", .obj [("fullname", .str "A"), ("phone", .str "123"),
         ("zzz", .str "q")])] :=
  rfl

/-- C6: envelope normalization of call_real_api: a parsed JSON array is
wrapped as \x7bresults: data\x7d, and an unparseable body yields
\x7btext: raw body\x7d. -/
theorem C6_envelope_normalization :
    (∀ (xs : List JVal) (raw : String),
      normalizeBody (some (.arr xs)) raw = .obj [("results", .arr xs)]) ∧
    (∀ raw : String, normalizeBody none raw = .obj [("text", .str raw)]) :=
  ⟨fun _ _ => rfl, fun _ => rfl⟩

/-- C7: for every hash function and non-empty term, mock_lookup is
deterministic: equal terms yield equal records, and the selected index
is abs(hash(term)) mod 3, a function of the term (and process hash)
only, always in bounds. -/
theorem C7_mock_deterministic (h : String → Int) (t₁ t₂ : String)
    (hne : t₁ ≠ "") (heq : t₁ = t₂) :
    mock_lookup h t₁ = mock_lookup h t₂ ∧
      mockIdx h t₁ = (h t₁).natAbs % 3 ∧ mockIdx h t₁ < 3 := by
  subst heq
  refine ⟨rfl, ?_, ?_⟩
  · simp [mockIdx, hne, samples]
  · simp [mockIdx, hne, samples]
    omega

/-- C7 witness: the determinism theorem applied at term "x" with a
concrete hash function. -/
theorem C7_mock_deterministic_witness :
    ("x" : String) ≠ "" ∧ ("x" : String) = "x" ∧
      (mock_lookup (fun s => (s.length : Int)) "x" =
          mock_lookup (fun s => (s.length : Int)) "x" ∧
        mockIdx (fun s => (s.length : Int)) "x" =
          (((("x" : String).length : Int))).natAbs % 3 ∧
        mockIdx (fun s => (s.length : Int)) "x" < 3) :=
  ⟨by decide, rfl,
    C7_mock_deterministic (fun s => (s.length : Int)) "x" "x" (by decide) rfl⟩

/-- C8: an empty submitted term dispatches to the input-error branch:
the handler action is inputError, which by construction of
LookupAction invokes neither mock_lookup nor call_real_api. -/
theorem C8_empty_term_input_error (use_mock : Bool)
    (base_url key_param api_key term_param : String) :
    do_lookup_action "" use_mock base_url key_param api_key term_param =
      LookupAction.inputError :=
  rfl

/-- C1 counterexample: for data = \x7bfullname: A\x7d the key fullname is
consumed as the source of the canonical field name, yet it also appears
inside the others bucket of the output, so a consumed key does appear
in others, contrary to the claim. -/
theorem C1_counterexample :
    "fullname" ∈ consumedKeys [("fullname", JVal.str "A")] ∧
    (auto_map_fields (.obj [("fullname", JVal.str "A")])).lookup "others" =
      some (.obj [("fullname", JVal.str "A")]) ∧
    hasKey [("fullname", JVal.str "A")] "fullname" = true :=
  ⟨by decide, rfl, rfl⟩

/-- C1 amended: for data with duplicate-free keys, the output keys and
the others-bucket keys are duplicate-free, and every key of data
appears exactly once — but split by name, not by consumption: a key
equal to a canonical field name appears in the canonical part and not
in others, while every other key (including one consumed as the source
of a canonical field) appears in others and not in the canonical part.
In particular a consumed alias differing from its canonical field name
reappears in others. -/
theorem C1_amended_key_partition (data : Obj)
    (hnd : (data.map Prod.fst).Nodup) :
    ((auto_map_fields (.obj data)).map Prod.fst).Nodup ∧
    ((othersPart (auto_map_fields (.obj data))).map Prod.fst).Nodup ∧
    (∀ k ∈ data.map Prod.fst,
      (k ∈ mapping_candidates.map Prod.fst ∧
        hasKey (canonicalPart (auto_map_fields (.obj data))) k = true ∧
        hasKey (othersPart (auto_map_fields (.obj data))) k = false) ∨
      (k ∉ mapping_candidates.map Prod.fst ∧
        hasKey (canonicalPart (auto_map_fields (.obj data))) k = false ∧
        hasKey (othersPart (auto_map_fields (.obj data))) k = true)) ∧
    (∀ k ∈ consumedKeys data, k ∉ mapping_candidates.map Prod.fst →
      hasKey (othersPart (auto_map_fields (.obj data))) k = true) := by
  refine ⟨out_keys_nodup data, ?_, ?_, ?_⟩
  · rw [othersPart_eq]
    exact othersOf_keys_nodup hnd
  · intro k hk
    rw [canonicalPart_eq, othersPart_eq]
    by_cases hcan : k ∈ mapping_candidates.map Prod.fst
    · rcases hasKey_eq_true_iff_lookup.mp (hasKey_iff_mem.mpr hk) with ⟨v, hv⟩
      have hm : hasKey (pass2 data (pass1 data)) k = true :=
        pass2Aux_hasKey_present data mapping_candidates hv hcan
      refine .inl ⟨hcan, hm, ?_⟩
      cases hko : hasKey (othersOf data (pass2 data (pass1 data))) k
      · rfl
      · rcases hasKey_othersOf_iff.mp hko with ⟨_, hnm⟩
        rw [hm] at hnm
        cases hnm
    · have hnm : hasKey (pass2 data (pass1 data)) k = false := by
        cases hm : hasKey (pass2 data (pass1 data)) k
        · rfl
        · exact absurd (mapped_hasKey_canonical data hm) hcan
      exact .inr ⟨hcan, hnm, hasKey_othersOf_iff.mpr ⟨hk, hnm⟩⟩
  · intro k hk hcan
    rw [othersPart_eq]
    have hdk := consumedKeys_hasKey hk
    have hnm : hasKey (pass2 data (pass1 data)) k = false := by
      cases hm : hasKey (pass2 data (pass1 data)) k
      · rfl
      · exact absurd (mapped_hasKey_canonical data hm) hcan
    exact hasKey_othersOf_iff.mpr ⟨hdk, hnm⟩

/-- C1 witness: the amended partition applied to the concrete input
\x7bfullname: A, zzz: q\x7d at the consumed key fullname. -/
theorem C1_amended_key_partition_witness :
    (([("fullname", JVal.str "A"), ("zzz", JVal.str "q")] : Obj).map
      Prod.fst).Nodup ∧
    (("fullname" ∈ mapping_candidates.map Prod.fst ∧
        hasKey (canonicalPart (auto_map_fields
          (.obj [("fullname", JVal.str "A"), ("zzz", JVal.str "q")])))
          "fullname" = true ∧
        hasKey (othersPart (auto_map_fields
          (.obj [("fullname", JVal.str "A"), ("zzz", JVal.str "q")])))
          "fullname" = false) ∨
      ("fullname" ∉ mapping_candidates.map Prod.fst ∧
        hasKey (canonicalPart (auto_map_fields
          (.obj [("fullname", JVal.str "A"), ("zzz", JVal.str "q")])))
          "fullname" = false ∧
        hasKey (othersPart (auto_map_fields
          (.obj [("fullname", JVal.str "A"), ("zzz", JVal.str "q")])))
          "fullname" = true)) :=
  ⟨by decide,
    (C1_amended_key_partition _ (by decide)).2.2.1 "fullname" (by decide)⟩

/-- C4 counterexample: for data = \x7bname: ""\x7d every present alias of
the canonical field name is falsy, yet name is present in the output
(the second pass copies the canonical-named key), contrary to the
claim. -/
theorem C4_counterexample :
    allPresentFalsy [("name", JVal.str "")]
      ["name", "fullname", "full_name", "user", "username"] = true ∧
    ("name", ["name", "fullname", "full_name", "user", "username"]) ∈
      mapping_candidates ∧
    hasKey (auto_map_fields (.obj [("name", JVal.str "")])) "name" = true :=
  ⟨by decide, by decide, rfl⟩

/-- C4 amended: if every present alias of canonical field f has a falsy
value (in particular when no alias is present) and f itself is not a
key of data, then f is absent from the mapper output. -/
theorem C4_amended_field_absent (data : Obj) (f : String)
    (A : List String) (hmem : (f, A) ∈ mapping_candidates)
    (hfal : allPresentFalsy data A = true)
    (habs : data.lookup f = none) :
    hasKey (auto_map_fields (.obj data)) f = false := by
  have hnone : ∀ B, (f, B) ∈ mapping_candidates →
      firstTruthy data B = none := by
    intro B hB
    have hBA : B = A := keys_nodup_eq (by decide) hB hmem
    subst hBA
    exact allPresentFalsy_firstTruthy hfal
  have h1 : hasKey (pass1 data) f = false :=
    pass1Aux_hasKey_none data mapping_candidates (by simp [hasKey]) hnone
  have h2 : hasKey (pass2 data (pass1 data)) f = false :=
    pass2Aux_hasKey_none data mapping_candidates h1 habs
  have hno : f ≠ "others" := by
    intro he
    have hf : f ∈ mapping_candidates.map Prod.fst :=
      List.mem_map.mpr ⟨(f, A), hmem, rfl⟩
    rw [he] at hf
    exact absurd hf (by decide)
  simp only [auto_map_fields]
  split
  · exact h2
  · rw [hasKey_append, h2]
    simp [hasKey, Ne.symm hno]

/-- C4 witness: the amended theorem applied to data = \x7bzzz: q\x7d, where
no alias of name is present: name is absent from the output. -/
theorem C4_amended_field_absent_witness :
    ("name", ["name", "fullname", "full_name", "user", "username"]) ∈
      mapping_candidates ∧
    allPresentFalsy [("zzz", JVal.str "q")]
      ["name", "fullname", "full_name", "user", "username"] = true ∧
    ([("zzz", JVal.str "q")] : Obj).lookup "name" = none ∧
    hasKey (auto_map_fields (.obj [("zzz", JVal.str "q")])) "name" =
      false :=
  ⟨by decide, by decide, rfl,
    C4_amended_field_absent [("zzz", JVal.str "q")] "name"
      ["name", "fullname", "full_name", "user", "username"]
      (by decide) (by decide) rfl⟩

/-- C5: for every canonical field f with alias list A, if c is the
first alias of A present in data with a truthy value, the mapper binds
f to the value of data at c; later aliases cannot change it. -/
theorem C5_first_truthy_alias (data : Obj) (f : String) (A : List String)
    (c : String) (v : JVal) (hmem : (f, A) ∈ mapping_candidates)
    (hfirst : firstTruthyKey data A = some c)
    (hval : data.lookup c = some v) :
    (auto_map_fields (.obj data)).lookup f = some v := by
  rcases firstTruthyKey_spec hfirst with ⟨w, hw, htr, hft⟩
  have hv : w = v := by
    rw [hval] at hw
    cases hw
    rfl
  subst hv
  have h1 : (pass1 data).lookup f = some w :=
    pass1Aux_lookup_first data mapping_candidates (by decide)
      (by simp [hasKey]) hmem hft
  have h2 : (pass2 data (pass1 data)).lookup f = some w :=
    pass2Aux_lookup_mono data mapping_candidates h1
  simp only [auto_map_fields]
  split
  · exact h2
  · exact lookup_append_left h2

/-- C5 witness: on data = \x7bfullname: A\x7d the first truthy alias of the
field name is fullname, and the mapper binds name to its value. -/
theorem C5_first_truthy_alias_witness :
    ("name", ["name", "fullname", "full_name", "user", "username"]) ∈
      mapping_candidates ∧
    firstTruthyKey [("fullname", JVal.str "A")]
      ["name", "fullname", "full_name", "user", "username"] =
      some "fullname" ∧
    ([("fullname", JVal.str "A")] : Obj).lookup "fullname" =
      some (JVal.str "A") ∧
    (auto_map_fields (.obj [("fullname", JVal.str "A")])).lookup "name" =
      some (JVal.str "A") :=
  ⟨by decide, by decide, rfl,
    C5_first_truthy_alias [("fullname", JVal.str "A")] "name"
      ["name", "fullname", "full_name", "user", "username"] "fullname"
      (JVal.str "A") (by decide) (by decide) rfl⟩

/-- C9: if a canonical field name f is itself a key of data, f is
always present in the mapper output, even when its value is falsy; and
when the first pass selected nothing for f, the second pass copies the
value of data at f verbatim. -/
theorem C9_canonical_key_always_present (data : Obj) (f : String)
    (A : List String) (v : JVal) (hmem : (f, A) ∈ mapping_candidates)
    (hval : data.lookup f = some v) :
    hasKey (auto_map_fields (.obj data)) f = true ∧
      (hasKey (pass1 data) f = false →
        (auto_map_fields (.obj data)).lookup f = some v) := by
  have hcan : f ∈ mapping_candidates.map Prod.fst :=
    List.mem_map.mpr ⟨(f, A), hmem, rfl⟩
  have h2 : hasKey (pass2 data (pass1 data)) f = true :=
    pass2Aux_hasKey_present data mapping_candidates hval hcan
  constructor
  · simp only [auto_map_fields]
    split
    · exact h2
    · rw [hasKey_append, h2]
      rfl
  · intro hnp
    have hl : (pass2 data (pass1 data)).lookup f = some v :=
      pass2Aux_lookup_insert data mapping_candidates hnp hval hcan
    simp only [auto_map_fields]
    split
    · exact hl
    · exact lookup_append_left hl

/-- C9 witness: on data = \x7bname: ""\x7d the first pass selects nothing,
yet name is present in the output with the falsy value copied
verbatim. -/
theorem C9_canonical_key_always_present_witness :
    ("name", ["name", "fullname", "full_name", "user", "username"]) ∈
      mapping_candidates ∧
    ([("name", JVal.str "")] : Obj).lookup "name" = some (JVal.str "") ∧
    hasKey (auto_map_fields (.obj [("name", JVal.str "")])) "name" =
      true ∧
    hasKey (pass1 [("name", JVal.str "")]) "name" = false ∧
    (auto_map_fields (.obj [("name", JVal.str "")])).lookup "name" =
      some (JVal.str "") :=
  ⟨by decide, rfl,
    (C9_canonical_key_always_present [("name", JVal.str "")] "name"
      ["name", "fullname", "full_name", "user", "username"]
      (JVal.str "") (by decide) rfl).1,
    by decide,
    (C9_canonical_key_always_present [("name", JVal.str "")] "name"
      ["name", "fullname", "full_name", "user", "username"]
      (JVal.str "") (by decide) rfl).2 (by decide)⟩

/-- C10: for every hash function and term, the record returned by
mock_lookup has a mobile field equal to the term verbatim. -/
theorem C10_mock_echoes_mobile (h : String → Int) (t : String) :
    (mock_lookup h t).lookup "mobile" = some (.str t) := by
  have hlt : mockIdx h t < 3 := by
    unfold mockIdx
    split
    · omega
    · exact Nat.mod_lt _ (by simp [samples])
  have h3 : mockIdx h t = 0 ∨ mockIdx h t = 1 ∨ mockIdx h t = 2 := by omega
  unfold mock_lookup
  rcases h3 with h3 | h3 | h3 <;> rw [h3] <;> rfl

end NumInfo
